import Mathlib

/-!
Shallow embedding of the vuex-style store core (src/store.js,
src/module/module.js, src/module/module-collection.js).

JavaScript values that flow through argument normalization, payloads and
handler results are modelled by `JSVal`.  Handlers are identified by
numeric ids; their behaviour is supplied abstractly through a `StoreCfg`
interpretation so that the orchestration code (commit/dispatch) is the
object of study, exactly as written in the source.  Side effects that the
source performs (console diagnostics, handler invocations, subscriber
notifications) are recorded as an event trace.
-/

set_option maxHeartbeats 1000000

/-- JavaScript runtime values, as far as the store's control flow inspects
them: `undefined`, `null`, booleans, numbers, strings, plain objects
(ordered field lists) and arrays. -/
inductive JSVal where
  | undefined
  | null
  | bool (b : Bool)
  | num (n : Int)
  | str (s : String)
  | obj (fields : List (String × JSVal))
  | arr (elems : List JSVal)

/-- JavaScript truthiness: `undefined`, `null`, `false`, `0` and the empty
string are falsy; every object and array is truthy. -/
def JSVal.truthy : JSVal → Bool
  | .undefined => false
  | .null => false
  | .bool b => b
  | .num n => n != 0
  | .str s => s != ""
  | .obj _ => true
  | .arr _ => true

/-- Modelled from the spec: `isObject` lives in `src/util.js`, which is not
part of the sources; per the spec's single-object calling convention it
recognises a (non-null) object value. -/
def isObject : JSVal → Bool
  | .obj _ => true
  | _ => false

/-- Property read `o[k]` on an object; a missing field reads as
`undefined`.  Object literals in the modelled code never repeat keys, so a
first-match lookup is used. -/
def JSVal.getField : JSVal → String → JSVal
  | .obj fields, k =>
    match fields.find? (fun p => p.1 == k) with
    | some p => p.2
    | none => .undefined
  | _, _ => .undefined

/-- Result of `unifyObjectStyle`: the `{type, payload, options}` record
(src/store.js lines 651-664). -/
structure UnifiedArgs where
  type : JSVal
  payload : JSVal
  options : JSVal

/-- `unifyObjectStyle(type, payload, options)` from src/store.js: when the
first argument is an object with a truthy `type` property, that property
becomes the type, the whole object becomes the payload, and the second
positional argument moves into the options slot.  (The non-production
assertion that the final type is a string is dev-only and elided.) -/
def unifyObjectStyle (type payload options : JSVal) : UnifiedArgs :=
  if isObject type && (type.getField "type").truthy then
    { type := type.getField "type", payload := type, options := payload }
  else
    { type := type, payload := payload, options := options }

/-- Registry keys are strings; the dev-mode assertion in
`unifyObjectStyle` guarantees the normalized type is a string, so a
non-string key simply misses every registry entry. -/
def JSVal.asKey : JSVal → Option String
  | .str s => some s
  | _ => none

/-- Lookup `registry[type]` in a flat handler registry
(`this._mutations` / `this._actions`), an assoc list from type to the
array of registered handler ids. -/
def findEntry (m : List (String × List Nat)) (t : String) : Option (List Nat) :=
  (m.find? (fun p => p.1 == t)).map (fun p => p.2)

/-- Settled outcome of an awaitable. -/
inductive Outcome where
  | fulfilled (v : JSVal)
  | rejected (reason : JSVal)

/-- Awaitable (promise) abstracted by its eventual outcome together with
the abstract time at which it settles. -/
structure Promise where
  outcome : Outcome
  time : Nat

def Promise.isRejected (p : Promise) : Bool :=
  match p.outcome with
  | .rejected _ => true
  | .fulfilled _ => false

/-- `Promise.resolve(v)`: an already-settled fulfilled awaitable. -/
def Promise.resolveVal (v : JSVal) : Promise :=
  { outcome := .fulfilled v, time := 0 }

/-- The earliest-settling promise of a list (ties resolved towards the
front of the list, matching event-loop arrival order). -/
def earliestSettled : List Promise → Option Promise
  | [] => none
  | p :: ps =>
    match earliestSettled ps with
    | none => some p
    | some q => some (if p.time ≤ q.time then p else q)

/-- Models the host platform's `Promise.all`: fulfils with the array of
values once every input has settled (at the latest settle time), and
rejects as soon as any input rejects (at the earliest rejection time,
with that rejection's reason). -/
def promiseAll (ps : List Promise) : Promise :=
  match earliestSettled (ps.filter Promise.isRejected) with
  | some p => { outcome := p.outcome, time := p.time }
  | none =>
    { outcome := .fulfilled (.arr (ps.map (fun p =>
        match p.outcome with
        | .fulfilled v => v
        | .rejected v => v))),
      time := (ps.map Promise.time).foldl max 0 }

/-- What a raw action handler returns: either a plain (non-awaitable)
value or an awaitable.  Modelled from the spec: the `isPromise` test of
`src/util.js` (not among the sources) distinguishes the two cases; here
the distinction is carried by the variant. -/
inductive HandlerRet where
  | plain (v : JSVal)
  | thenable (p : Promise)

/-- The coercion performed by `wrappedActionHandler` in `registerAction`
(src/store.js lines 562-590): a non-awaitable result is wrapped with
`Promise.resolve`.  (The devtool-hook branch is inactive: no devtool hook
is attached in the modelled store.) -/
def coerceToPromise : HandlerRet → Promise
  | .plain v => Promise.resolveVal v
  | .thenable p => p

/-- Interpretation of the registered handler ids: a mutation handler maps
the current state and payload to a new state; an action handler
additionally produces its return value. -/
structure StoreCfg where
  runMut : Nat → Nat → JSVal → Nat
  runAct : Nat → Nat → JSVal → Nat × HandlerRet

/-- The store fields that commit/dispatch/subscribe read and write:
the write-guard flag `_committing`, the flat registries `_mutations` and
`_actions`, the subscriber lists, and the state (an abstract state id). -/
structure Store where
  committing : Bool
  mutations : List (String × List Nat)
  actions : List (String × List Nat)
  subscribers : List Nat
  actionSubscribers : List Nat
  state : Nat

/-- Observable events of a commit/dispatch call, in order of occurrence:
dev-mode unknown-type diagnostics, mutation handler invocations (recording
the write-guard flag at invocation time), subscriber notifications
carrying the `{type, payload}` record and the state passed along, and
action handler invocations. -/
inductive Ev where
  | errorUnknownMutation (type : JSVal)
  | errorUnknownAction (type : JSVal)
  | runMutation (id : Nat) (payload : JSVal) (committing : Bool)
  | notifySubscriber (id : Nat) (type : JSVal) (payload : JSVal) (st : Nat)
  | notifyActionSubscriber (id : Nat) (type : JSVal) (payload : JSVal) (st : Nat)
  | runAction (id : Nat) (payload : JSVal)

/-- The payload an event delivers, when it delivers one. -/
def Ev.payloadOf : Ev → Option JSVal
  | .errorUnknownMutation _ => none
  | .errorUnknownAction _ => none
  | .runMutation _ p _ => some p
  | .notifySubscriber _ _ p _ => some p
  | .notifyActionSubscriber _ _ p _ => some p
  | .runAction _ p => some p

def Ev.isRunAction : Ev → Bool
  | .runAction _ _ => true
  | _ => false

def Ev.isActionNotify : Ev → Bool
  | .notifyActionSubscriber _ _ _ _ => true
  | _ => false

/-- One step of `entry.forEach(commitIterator)` inside `_withCommit`:
invoke the handler on the payload, recording the write-guard flag that
was set when the handler ran. -/
def commitStep (cfg : StoreCfg) (payload : JSVal) (acc : Store × List Ev) (h : Nat) :
    Store × List Ev :=
  ({ acc.1 with state := cfg.runMut h acc.1.state payload },
   acc.2 ++ [Ev.runMutation h payload acc.1.committing])

/-- `Store.prototype.commit` (src/store.js lines 110-148): normalize the
arguments, look up the mutation entry (unknown type: dev diagnostic,
no-op), run every handler in registration order inside `_withCommit`
(which sets the write-guard and restores it afterwards, lines 279-284),
then notify every mutation subscriber in subscription order with the
`{type, payload}` record and the current state.  The dev-only warning
about the removed `silent` option performs no state change and is
elided. -/
def Store.commit (cfg : StoreCfg) (s : Store) (t p o : JSVal) : Store × List Ev :=
  let a := unifyObjectStyle t p o
  match a.type.asKey >>= findEntry s.mutations with
  | none => (s, [Ev.errorUnknownMutation a.type])
  | some entry =>
    let committing := s.committing
    let s1 := { s with committing := true }
    let r := entry.foldl (commitStep cfg a.payload) (s1, [])
    let s3 := { r.1 with committing := committing }
    (s3, r.2 ++ s3.subscribers.map (fun sub =>
      Ev.notifySubscriber sub a.type a.payload s3.state))

/-- One step of `entry.map(handler => handler(payload))`: run the action
handler, thread the state it may have changed, record the invocation and
collect the awaitable-coerced result. -/
def dispatchStep (cfg : StoreCfg) (payload : JSVal)
    (acc : Store × List Ev × List Promise) (h : Nat) :
    Store × List Ev × List Promise :=
  let r := cfg.runAct h acc.1.state payload
  ({ acc.1 with state := r.1 },
   acc.2.1 ++ [Ev.runAction h payload],
   acc.2.2 ++ [coerceToPromise r.2])

/-- `Store.prototype.dispatch` (src/store.js lines 156-179): normalize the
arguments, look up the action entry (unknown type: dev diagnostic and an
`undefined` result, modelled as `none`), notify every action subscriber
with the `{type, payload}` record and the current state, then run
`entry[0]` when a single handler is registered or `Promise.all` over all
handlers otherwise.  (An empty registered entry never occurs: every entry
is created non-empty by `registerAction` and the registries are rebuilt
from scratch on reset; the `[]` branch is dead.) -/
def Store.dispatch (cfg : StoreCfg) (s : Store) (t p : JSVal) :
    Store × Option Promise × List Ev :=
  let a := unifyObjectStyle t p JSVal.undefined
  match a.type.asKey >>= findEntry s.actions with
  | none => (s, none, [Ev.errorUnknownAction a.type])
  | some entry =>
    let evs := s.actionSubscribers.map (fun sub =>
      Ev.notifyActionSubscriber sub a.type a.payload s.state)
    match entry with
    | [] => (s, none, evs)
    | [h] =>
      let r := cfg.runAct h s.state a.payload
      ({ s with state := r.1 }, some (coerceToPromise r.2),
       evs ++ [Ev.runAction h a.payload])
    | h1 :: h2 :: hs =>
      let r := (h1 :: h2 :: hs).foldl (dispatchStep cfg a.payload) (s, [], [])
      (r.1, some (promiseAll r.2.2), evs ++ r.2.1)

/-- `Array.prototype.indexOf` over a subscriber list, as an optional
index. -/
def arrayIndexOf (fn : Nat) : List Nat → Option Nat
  | [] => none
  | x :: xs => if x = fn then some 0 else (arrayIndexOf fn xs).map (· + 1)

/-- `genericSubscribe(fn, subs)` (src/store.js lines 293-305): push `fn`
only if it is not already subscribed; the returned list is the updated
subscriber array. -/
def genericSubscribe (fn : Nat) (subs : List Nat) : List Nat :=
  match arrayIndexOf fn subs with
  | none => subs ++ [fn]
  | some _ => subs

/-- The unsubscribe closure returned by `genericSubscribe`: find the
reference and `splice` it out; a missing reference is left alone. -/
def genericUnsubscribe (fn : Nat) (subs : List Nat) : List Nat :=
  match arrayIndexOf fn subs with
  | some i => subs.eraseIdx i
  | none => subs

/-- `Store.prototype.subscribe` (src/store.js lines 186-188). -/
def Store.subscribe (s : Store) (fn : Nat) : Store :=
  { s with subscribers := genericSubscribe fn s.subscribers }

/-- `Store.prototype.subscribeAction` (src/store.js lines 195-197). -/
def Store.subscribeAction (s : Store) (fn : Nat) : Store :=
  { s with actionSubscribers := genericSubscribe fn s.actionSubscribers }

/-- Events of the global `install` hook (src/store.js lines 670-681):
the dev diagnostic for a repeated install, and the `applyMixin`
application to the provider being bound. -/
inductive InstallEv where
  | errorAlreadyInstalled
  | appliedMixin (provider : Nat)

/-- `install(_Vue)` (src/store.js lines 670-681) acting on the
module-level `Vue` binding (`none` = not yet bound; providers are opaque
non-null ids, so a bound provider is always truthy): when a provider is
bound and the argument is the very same provider, report the diagnostic
and return; otherwise bind the argument and apply the mixin. -/
def install (bound : Option Nat) (provider : Nat) : Option Nat × List InstallEv :=
  match bound with
  | some u =>
    if provider = u then (some u, [InstallEv.errorAlreadyInstalled])
    else (some provider, [InstallEv.appliedMixin provider])
  | none => (some provider, [InstallEv.appliedMixin provider])

namespace Vuex

/-- A raw module definition (the `ModuleDefinition` fed to the module
tree): the `namespaced` flag (absent reads as `false` through the `!!`
coercion), the declared state (a function-valued state is represented by
the slice it computes; `none` is an absent or falsy state), the three
handler tables (ids keyed by name; `none` when the field is absent), and
the nested `modules` map. -/
inductive RawModule where
  | mk (namespacedF : Bool) (stateF : Option Nat)
       (gettersF : Option (List (String × Nat)))
       (mutationsF : Option (List (String × Nat)))
       (actionsF : Option (List (String × Nat)))
       (modulesF : Option (List (String × RawModule)))

def RawModule.namespacedF : RawModule → Bool
  | .mk n _ _ _ _ _ => n

def RawModule.stateF : RawModule → Option Nat
  | .mk _ st _ _ _ _ => st

def RawModule.gettersF : RawModule → Option (List (String × Nat))
  | .mk _ _ gs _ _ _ => gs

def RawModule.mutationsF : RawModule → Option (List (String × Nat))
  | .mk _ _ _ mu _ _ => mu

def RawModule.actionsF : RawModule → Option (List (String × Nat))
  | .mk _ _ _ _ ac _ => ac

def RawModule.modulesF : RawModule → Option (List (String × RawModule))
  | .mk _ _ _ _ _ mo => mo

/-- Dictionary read on an `Object.create(null)` keyed collection. -/
def assocGet {α : Type} : List (String × α) → String → Option α
  | [], _ => none
  | p :: rest, k => if p.1 == k then some p.2 else assocGet rest k

/-- Dictionary write: an existing key is overwritten in place (keeping
its position, as JavaScript property assignment does), a fresh key is
appended. -/
def assocSet {α : Type} : List (String × α) → String → α → List (String × α)
  | [], k, v => [(k, v)]
  | p :: rest, k, v =>
    if p.1 == k then (k, v) :: rest else p :: assocSet rest k v

/-- Dictionary `delete`: the key is removed. -/
def assocDel {α : Type} (m : List (String × α)) (k : String) :
    List (String × α) :=
  m.filter (fun p => !(p.1 == k))

/-- A live module tree node (`Module` in src/module/module.js): the
`runtime` flag, the `_children` dictionary, the retained `_rawModule`,
and the computed `state` slice. -/
inductive Module where
  | node (runtime : Bool) (children : List (String × Module))
         (raw : RawModule) (state : Nat)

def Module.runtimeOf : Module → Bool
  | .node rt _ _ _ => rt

def Module.childrenOf : Module → List (String × Module)
  | .node _ ch _ _ => ch

def Module.rawOf : Module → RawModule
  | .node _ _ raw _ => raw

def Module.stateOf : Module → Nat
  | .node _ _ _ st => st

/-- `this.state = (typeof rawState === 'function' ? rawState() : rawState) || {}`:
function-valued state is represented by the slice it computes; the empty
object produced by the `|| {}` fallback is slice `0`. -/
def initState : Option Nat → Nat
  | some v => v
  | none => 0

/-- The `Module` constructor (src/module/module.js lines 13-27). -/
def Module.ofRaw (raw : RawModule) (runtime : Bool) : Module :=
  .node runtime [] raw (initState raw.stateF)

/-- `get namespaced()` — the `!!` coercion of the raw flag. -/
def Module.namespaced (m : Module) : Bool :=
  m.rawOf.namespacedF

def Module.getChild (m : Module) (k : String) : Option Module :=
  assocGet m.childrenOf k

def Module.addChild (m : Module) (k : String) (c : Module) : Module :=
  match m with
  | .node rt ch raw st => .node rt (assocSet ch k c) raw st

def Module.removeChild (m : Module) (k : String) : Module :=
  match m with
  | .node rt ch raw st => .node rt (assocDel ch k) raw st

/-- `Module.prototype.update` (src/module/module.js lines 53-64):
overwrite the raw `namespaced` flag unconditionally and each of
`actions`/`mutations`/`getters` only when present (truthy) in the new
definition; the node's own `state`, its `_children`, and the raw
definition's `state`/`modules` fields are untouched. -/
def Module.update (m : Module) (r : RawModule) : Module :=
  match m with
  | .node rt ch (.mk _ st gs mu ac mo) stv =>
    .node rt ch
      (.mk r.namespacedF st
        (if r.gettersF.isSome then r.gettersF else gs)
        (if r.mutationsF.isSome then r.mutationsF else mu)
        (if r.actionsF.isSome then r.actionsF else ac)
        mo) stv

/-- Resolve a node by repeated child lookup (failure propagates, as the
JavaScript lookup would crash on a missing intermediate node). -/
def nodeAt : Module → List String → Option Module
  | m, [] => some m
  | m, k :: ks => (m.getChild k).bind (fun c => nodeAt c ks)

/-- `ModuleCollection` — the tree is its root node. -/
structure ModuleCollection where
  root : Module

/-- `ModuleCollection.prototype.get` (src/module/module-collection.js
lines 21-26): `path.reduce((module, key) => module.getChild(key), root)`,
with a failed lookup propagating as `none`. -/
def ModuleCollection.get (c : ModuleCollection) (path : List String) :
    Option Module :=
  path.foldl (fun om key => om.bind (fun m => m.getChild key)) (some c.root)

/-- One step of the `getNamespace` reduce: advance the cursor to the
child and append `key + '/'` when that child is namespaced. -/
def nsStep (acc : Option Module × String) (key : String) :
    Option Module × String :=
  let m := acc.1.bind (fun mm => mm.getChild key)
  (m, acc.2 ++ (if (m.map Module.namespaced).getD false then key ++ "/" else ""))

/-- `ModuleCollection.prototype.getNamespace` (src/module/
module-collection.js lines 33-39).  The cursor starts at the root; the
root's own flag is never consulted.  (On a path that fails to resolve
the JavaScript would crash reading `.namespaced` of `undefined`; the
model totalizes that branch, which no resolving path exercises.) -/
def ModuleCollection.getNamespace (c : ModuleCollection)
    (path : List String) : String :=
  (path.foldl nsStep (some c.root, "")).2

/-- Attach `nm` as the child named by the last segment of `path` on the
parent found by resolving `path` minus its last segment — the
`parent = get(path.slice(0, -1)); parent.addChild(last, nm)` step of
`register`, as a functional path rebuild.  A failed parent resolution
(a JavaScript crash) is `none`; the empty path is handled by the caller
(root replacement). -/
def registerAt : Module → List String → Module → Option Module
  | _, [], _ => none
  | m, [k], nm => some (m.addChild k nm)
  | m, k :: k2 :: ks, nm =>
    (m.getChild k).bind (fun c =>
      (registerAt c (k2 :: ks) nm).map (fun c' => m.addChild k c'))

/-- The pending child registrations produced by one `register` call: each
entry of the raw `modules` map, to be registered under `path ++ [key]`. -/
def childJobs (path : List String) (raw : RawModule) :
    List (List String × RawModule) :=
  match raw.modulesF with
  | none => []
  | some kids => kids.map (fun kv => (path ++ [kv.1], kv.2))

mutual

/-- Structural size of a raw definition (the registration and hot-update
termination measure; the derived `sizeOf` of the nested inductive is not
executable, so the measure is defined by hand). -/
def rawSize : RawModule → Nat
  | .mk _ _ _ _ _ none => 1
  | .mk _ _ _ _ _ (some kids) => 1 + kidsSize kids
  termination_by r => sizeOf r
  decreasing_by all_goals (simp; try omega)

/-- Combined size of a raw `modules` map. -/
def kidsSize : List (String × RawModule) → Nat
  | [] => 0
  | (_, r) :: rest => 1 + rawSize r + kidsSize rest
  termination_by ks => sizeOf ks
  decreasing_by all_goals (simp; try omega)

end

theorem rawSize_pos (r : RawModule) : 0 < rawSize r := by
  cases r with
  | mk n st gs mu ac mo => cases mo <;> simp [rawSize]

theorem modulesF_rawSize (r : RawModule)
    (kids : List (String × RawModule)) (h : r.modulesF = some kids) :
    rawSize r = 1 + kidsSize kids := by
  cases r with
  | mk n st gs mu ac mo =>
    cases mo with
    | none => simp [RawModule.modulesF] at h
    | some kids' =>
      simp [RawModule.modulesF] at h
      subst h
      simp [rawSize]

/-- Combined size of the raw definitions still to be registered. -/
def jobsSize : List (List String × RawModule) → Nat
  | [] => 0
  | j :: rest => rawSize j.2 + jobsSize rest

theorem jobsSize_append (a b : List (List String × RawModule)) :
    jobsSize (a ++ b) = jobsSize a + jobsSize b := by
  induction a with
  | nil => simp [jobsSize]
  | cons j rest ih => simp [jobsSize, ih]; omega

theorem jobsSize_map_le (path : List String)
    (kids : List (String × RawModule)) :
    jobsSize (kids.map (fun kv => (path ++ [kv.1], kv.2))) ≤ kidsSize kids := by
  induction kids with
  | nil => simp [jobsSize, kidsSize]
  | cons kv rest ih =>
    cases kv with
    | mk k rk => simp [jobsSize, kidsSize]; omega

theorem childJobs_size_lt (path : List String) (raw : RawModule) :
    jobsSize (childJobs path raw) < rawSize raw := by
  cases h : raw.modulesF with
  | none =>
    simp [childJobs, h, jobsSize]
    exact rawSize_pos raw
  | some kids =>
    have h1 := jobsSize_map_le path kids
    have h2 := modulesF_rawSize raw kids h
    simp [childJobs, h, jobsSize]
    omega

/-- The registration worklist: `ModuleCollection.prototype.register`
(src/module/module-collection.js lines 55-86) processed depth-first in
source order.  Each job creates a `Module` from its raw definition,
makes it the root when the path is empty or attaches it under its parent
otherwise, then queues every entry of the raw `modules` map for
registration under the extended path (the recursive
`this.register(path.concat(key), rawChildModule, runtime)` calls).  The
dev-only `assertRawModule` validation is elided. -/
def registerJobs (rt : Bool) :
    Option ModuleCollection → List (List String × RawModule) →
    Option ModuleCollection
  | c, [] => c
  | none, _ :: _ => none
  | some cc, (path, raw) :: rest =>
    let newM := Module.ofRaw raw rt
    let c1 : Option ModuleCollection :=
      if path = [] then some ⟨newM⟩
      else (registerAt cc.root path newM).map (fun r => ⟨r⟩)
    registerJobs rt c1 (childJobs path raw ++ rest)
  termination_by c jobs => jobsSize jobs
  decreasing_by
    simp only [jobsSize, jobsSize_append]
    have h := childJobs_size_lt path raw
    omega

/-- `ModuleCollection.prototype.register`, entry point. -/
def ModuleCollection.register (c : ModuleCollection) (path : List String)
    (raw : RawModule) (rt : Bool) : Option ModuleCollection :=
  registerJobs rt (some c) [(path, raw)]

/-- Rebuild the tree with `f` applied to the node at `path` (the
functional counterpart of mutating a node found by `get`). -/
def modifyAt : Module → List String → (Module → Module) → Option Module
  | m, [], f => some (f m)
  | m, k :: ks, f =>
    (m.getChild k).bind (fun c =>
      (modifyAt c ks f).map (fun c' => m.addChild k c'))

/-- `ModuleCollection.prototype.unregister` (src/module/
module-collection.js lines 92-99): resolve the parent, read the target
child's `runtime` flag (a missing parent or child is a JavaScript crash,
`none`), refuse — returning the collection untouched — when the flag is
false, otherwise detach the child. -/
def ModuleCollection.unregister (c : ModuleCollection)
    (path : List String) : Option ModuleCollection :=
  match path.getLast? with
  | none => none
  | some key =>
    (c.get path.dropLast).bind (fun parent =>
      match parent.getChild key with
      | none => none
      | some child =>
        if !child.runtimeOf then some c
        else (modifyAt c.root path.dropLast
                (fun p => p.removeChild key)).map (fun r => ⟨r⟩))

mutual

/-- The recursive `update(path, targetModule, newModule)` helper of
src/module/module-collection.js (lines 110-145): apply
`targetModule.update(newModule)`, then walk the new definition's
`modules` map; the returned list collects the keys for which the
"trying to add a new module ... manual reload is needed" warning is
emitted.  The dev-only `assertRawModule` validation is elided; the
`path` argument only feeds that validation message and is dropped. -/
def updateTree (t : Module) (r : RawModule) : Module × List String :=
  let t1 := t.update r
  match h : r.modulesF with
  | none => (t1, [])
  | some kids => updateKids t1 kids
  termination_by rawSize r
  decreasing_by
    have h2 := modulesF_rawSize r kids h
    omega

/-- The `for (const key in newModule.modules)` loop body: a key with no
matching live child emits the warning and `return`s — ending the whole
loop, so every remaining entry is skipped; a matching child is updated
recursively and the loop continues. -/
def updateKids (t : Module) (kids : List (String × RawModule)) :
    Module × List String :=
  match kids with
  | [] => (t, [])
  | (k, rk) :: rest =>
    match t.getChild k with
    | none => (t, [k])
    | some c =>
      let cr := updateTree c rk
      let tr := updateKids (t.addChild k cr.1) rest
      (tr.1, cr.2 ++ tr.2)
  termination_by kidsSize kids
  decreasing_by
    all_goals (simp [kidsSize]; try omega)

end

/-- `ModuleCollection.prototype.update` (src/module/module-collection.js
lines 45-47): `update([], this.root, rawRootModule)`. -/
def ModuleCollection.update (c : ModuleCollection) (raw : RawModule) :
    ModuleCollection × List String :=
  let r := updateTree c.root raw
  (⟨r.1⟩, r.2)

end Vuex

namespace Vuex

theorem assocGet_set_self {α : Type} (m : List (String × α)) (k : String)
    (v : α) : assocGet (assocSet m k v) k = some v := by
  induction m with
  | nil => simp [assocGet, assocSet]
  | cons p rest ih =>
    by_cases h : p.1 = k
    · simp [assocSet, assocGet, h]
    · simp [assocSet, assocGet, h, ih]

theorem assocGet_del_self {α : Type} (m : List (String × α)) (k : String) :
    assocGet (assocDel m k) k = none := by
  induction m with
  | nil => rfl
  | cons p rest ih =>
    by_cases h : p.1 = k
    · simpa [assocDel, List.filter_cons, h] using ih
    · simpa [assocDel, List.filter_cons, assocGet, h] using ih

theorem getChild_addChild_self (m : Module) (k : String) (c : Module) :
    (m.addChild k c).getChild k = some c := by
  cases m with
  | node rt ch raw st =>
    simp [Module.addChild, Module.getChild, Module.childrenOf,
      assocGet_set_self]

theorem getChild_removeChild_self (m : Module) (k : String) :
    (m.removeChild k).getChild k = none := by
  cases m with
  | node rt ch raw st =>
    simp [Module.removeChild, Module.getChild, Module.childrenOf,
      assocGet_del_self]

theorem addChild_fields (m : Module) (k : String) (c : Module) :
    (m.addChild k c).runtimeOf = m.runtimeOf
  ∧ (m.addChild k c).rawOf = m.rawOf
  ∧ (m.addChild k c).stateOf = m.stateOf := by
  cases m with
  | node rt ch raw st =>
    simp [Module.addChild, Module.runtimeOf, Module.rawOf, Module.stateOf]

end Vuex

open Vuex

/-- C9: `Module.update` overwrites the raw definition's `namespaced` flag
and exactly those of the `actions`/`mutations`/`getters` tables present in
the new definition, leaves the tables absent from it untouched, and never
modifies the node's state slice, its children mapping, its runtime flag,
or the raw definition's own `state` and `modules` fields. -/
theorem module_update_fields (m : Module) (r : RawModule) :
    (m.update r).rawOf.namespacedF = r.namespacedF
  ∧ (m.update r).rawOf.actionsF =
      (if r.actionsF.isSome then r.actionsF else m.rawOf.actionsF)
  ∧ (m.update r).rawOf.mutationsF =
      (if r.mutationsF.isSome then r.mutationsF else m.rawOf.mutationsF)
  ∧ (m.update r).rawOf.gettersF =
      (if r.gettersF.isSome then r.gettersF else m.rawOf.gettersF)
  ∧ (m.update r).stateOf = m.stateOf
  ∧ (m.update r).childrenOf = m.childrenOf
  ∧ (m.update r).rawOf.stateF = m.rawOf.stateF
  ∧ (m.update r).rawOf.modulesF = m.rawOf.modulesF
  ∧ (m.update r).runtimeOf = m.runtimeOf := by
  cases m with
  | node rt ch raw st =>
    cases raw with
    | mk n st2 gs mu ac mo =>
      simp [Module.update, Module.rawOf, Module.stateOf, Module.childrenOf,
        Module.runtimeOf, RawModule.namespacedF, RawModule.actionsF,
        RawModule.mutationsF, RawModule.gettersF, RawModule.stateF,
        RawModule.modulesF]

/-- C5 counterexample: the claim says the bound provider never changes
after the first install, but installing a distinct provider `2` after a
first install of provider `1` rebinds the global to `2` (the guard only
fires when the very same provider is passed again). -/
theorem install_distinct_provider_rebinds_ce :
    (install (install none 1).1 2).1 = some 2
  ∧ (install (install none 1).1 2).2 = [InstallEv.appliedMixin 2]
  ∧ some 2 ≠ (some 1 : Option Nat) := by
  refine ⟨rfl, rfl, by decide⟩

/-- C5 (amended): after a first install with provider `a`, re-installing
the very same provider reports the already-installed diagnostic and
leaves the binding unchanged, while installing a distinct provider
`b ≠ a` rebinds the global to `b` and re-applies the mixin — the
install-once guard only deduplicates the identical provider. -/
theorem install_once_amended (a b : Nat) :
    install (install none a).1 a = (some a, [InstallEv.errorAlreadyInstalled])
  ∧ (b ≠ a →
      install (install none a).1 b = (some b, [InstallEv.appliedMixin b])) := by
  constructor
  · simp [install]
  · intro h
    simp [install, h]

/-- C5 witness: the amended theorem evaluated at providers 1 and 2. -/
theorem install_once_amended_witness :
    install (install none 1).1 1 = (some 1, [InstallEv.errorAlreadyInstalled])
  ∧ install (install none 1).1 2 = (some 2, [InstallEv.appliedMixin 2]) :=
  ⟨(install_once_amended 1 2).1, (install_once_amended 1 2).2 (by decide)⟩

theorem arrayIndexOf_eq_none_iff (fn : Nat) (subs : List Nat) :
    arrayIndexOf fn subs = none ↔ fn ∉ subs := by
  induction subs with
  | nil => simp [arrayIndexOf]
  | cons x xs ih =>
    by_cases h : x = fn
    · subst h
      simp [arrayIndexOf]
    · simp [arrayIndexOf, h, Option.map_eq_none', ih, Ne.symm h]

theorem genericUnsubscribe_eq_erase (fn : Nat) (subs : List Nat) :
    genericUnsubscribe fn subs = subs.erase fn := by
  induction subs with
  | nil => rfl
  | cons x xs ih =>
    by_cases h : x = fn
    · subst h
      simp [genericUnsubscribe, arrayIndexOf, List.eraseIdx,
        List.erase_cons_head]
    · have hbeq : (x == fn) = false := by simp [h]
      rw [List.erase_cons_tail]
      · simp only [genericUnsubscribe, arrayIndexOf, if_neg h] at ih ⊢
        cases hx : arrayIndexOf fn xs with
        | none =>
          rw [hx] at ih
          simp only [hx, Option.map_none']
          rw [← ih]
        | some i =>
          rw [hx] at ih
          simp only [hx, Option.map_some']
          simp [List.eraseIdx]
          exact ih
      · simp [h]

/-- C8: `genericSubscribe` on a reference already in the subscriber list
leaves the list unchanged (a reference is registered at most once, and a
fresh reference is appended); the unsubscribe closure removes exactly
that reference (the count of the reference drops by one and every other
reference's count is unchanged); unsubscribing a reference that is not in
the list — including unsubscribing a second time after the only
occurrence was removed — is a no-op; `subscribe`/`subscribeAction` both
delegate to `genericSubscribe` on their respective lists. -/
theorem subscribe_unsubscribe_spec (fn : Nat) (subs : List Nat) :
    (fn ∈ subs → genericSubscribe fn subs = subs)
  ∧ (fn ∉ subs → genericSubscribe fn subs = subs ++ [fn])
  ∧ (fn ∈ subs → (genericUnsubscribe fn subs).count fn = subs.count fn - 1)
  ∧ (∀ g, g ≠ fn → (genericUnsubscribe fn subs).count g = subs.count g)
  ∧ (fn ∉ subs → genericUnsubscribe fn subs = subs)
  ∧ (subs.count fn ≤ 1 →
      genericUnsubscribe fn (genericUnsubscribe fn subs) =
        genericUnsubscribe fn subs)
  ∧ (∀ s : Store, (s.subscribe fn).subscribers =
      genericSubscribe fn s.subscribers)
  ∧ (∀ s : Store, (s.subscribeAction fn).actionSubscribers =
      genericSubscribe fn s.actionSubscribers) := by
  refine ⟨?_, ?_, ?_, ?_, ?_, ?_, fun s => rfl, fun s => rfl⟩
  · intro h
    cases hx : arrayIndexOf fn subs with
    | none => exact absurd ((arrayIndexOf_eq_none_iff fn subs).mp hx) (by simp [h])
    | some i => simp [genericSubscribe, hx]
  · intro h
    rw [genericSubscribe, (arrayIndexOf_eq_none_iff fn subs).mpr h]
  · intro h
    rw [genericUnsubscribe_eq_erase]
    exact List.count_erase_self fn subs
  · intro g hg
    rw [genericUnsubscribe_eq_erase]
    exact List.count_erase_of_ne hg subs
  · intro h
    rw [genericUnsubscribe_eq_erase]
    exact List.erase_of_not_mem h
  · intro h
    rw [genericUnsubscribe_eq_erase, genericUnsubscribe_eq_erase]
    by_cases hm : fn ∈ subs
    · have h0 : (subs.erase fn).count fn = 0 := by
        rw [List.count_erase_self]
        have h1 : 1 ≤ subs.count fn := List.one_le_count_iff.mpr hm
        omega
      exact List.erase_of_not_mem (by
        intro hmem
        have := List.one_le_count_iff.mpr hmem
        omega)
    · rw [List.erase_of_not_mem hm, List.erase_of_not_mem hm]

/-- C8 witness: the theorem evaluated on the concrete list `[4, 7]` with
reference `7`. -/
theorem subscribe_unsubscribe_spec_witness :
    genericSubscribe 7 [4, 7] = [4, 7]
  ∧ (genericUnsubscribe 7 [4, 7]).count 7 = 0
  ∧ genericUnsubscribe 7 (genericUnsubscribe 7 [4, 7]) =
      genericUnsubscribe 7 [4, 7] := by
  have h := subscribe_unsubscribe_spec 7 [4, 7]
  refine ⟨h.1 (by decide), ?_, h.2.2.2.2.2.1 (by decide)⟩
  have h2 := h.2.2.1 (by decide)
  simpa using h2

/-- The state after the `_withCommit` handler loop: each registered
handler applied to the threaded state in registration order. -/
def applyMuts (cfg : StoreCfg) (payload : JSVal) : Nat → List Nat → Nat
  | st, [] => st
  | st, h :: hs => applyMuts cfg payload (cfg.runMut h st payload) hs

theorem foldl_commitStep (cfg : StoreCfg) (payload : JSVal)
    (entry : List Nat) (s0 : Store) (evs0 : List Ev)
    (hc : s0.committing = true) :
    entry.foldl (commitStep cfg payload) (s0, evs0) =
      ({ s0 with state := applyMuts cfg payload s0.state entry },
       evs0 ++ entry.map (fun h => Ev.runMutation h payload true)) := by
  induction entry generalizing s0 evs0 with
  | nil => simp [applyMuts]
  | cons h hs ih =>
    rw [List.foldl_cons]
    rw [show commitStep cfg payload (s0, evs0) h =
        ({ s0 with state := cfg.runMut h s0.state payload },
         evs0 ++ [Ev.runMutation h payload true]) from by
      simp [commitStep, hc]]
    rw [ih _ _ (by simp [hc])]
    simp [applyMuts]

/-- `commit` in closed form: the unknown-type branch and the
handlers-then-subscribers branch. -/
theorem commit_cases (cfg : StoreCfg) (s : Store) (t p o : JSVal) :
    Store.commit cfg s t p o =
      match (unifyObjectStyle t p o).type.asKey >>= findEntry s.mutations with
      | none => (s, [Ev.errorUnknownMutation (unifyObjectStyle t p o).type])
      | some entry =>
        ({ s with state :=
             applyMuts cfg (unifyObjectStyle t p o).payload s.state entry },
         entry.map (fun h =>
             Ev.runMutation h (unifyObjectStyle t p o).payload true)
           ++ s.subscribers.map (fun sub =>
               Ev.notifySubscriber sub (unifyObjectStyle t p o).type
                 (unifyObjectStyle t p o).payload
                 (applyMuts cfg (unifyObjectStyle t p o).payload
                   s.state entry))) := by
  simp only [Store.commit]
  cases hE : (unifyObjectStyle t p o).type.asKey >>= findEntry s.mutations with
  | none => rfl
  | some entry =>
    simp only
    rw [foldl_commitStep cfg (unifyObjectStyle t p o).payload entry
        { s with committing := true } [] rfl]
    cases s
    simp

/-- C3: `commit(type, payload, options)` first normalizes its arguments;
when no mutation entry exists for the normalized type it reports the
unknown-type diagnostic and is a no-op (the store, in particular the
state, is returned unchanged); otherwise every registered handler is
invoked synchronously in registration order with the write-guard flag
held (each `runMutation` event records flag `true`, and the final store's
flag is restored to its original value since only `state` changes), and
afterwards every mutation subscriber is notified synchronously in
subscription order with the `{type, payload}` record and the current
(post-handlers) state. -/
theorem commit_spec_thm (cfg : StoreCfg) (s : Store) (t p o : JSVal) :
    ((unifyObjectStyle t p o).type.asKey >>= findEntry s.mutations = none →
       Store.commit cfg s t p o =
         (s, [Ev.errorUnknownMutation (unifyObjectStyle t p o).type]))
  ∧ (∀ entry,
       (unifyObjectStyle t p o).type.asKey >>= findEntry s.mutations =
           some entry →
       Store.commit cfg s t p o =
         ({ s with state :=
              applyMuts cfg (unifyObjectStyle t p o).payload s.state entry },
          entry.map (fun hid =>
              Ev.runMutation hid (unifyObjectStyle t p o).payload true)
            ++ s.subscribers.map (fun sub =>
                Ev.notifySubscriber sub (unifyObjectStyle t p o).type
                  (unifyObjectStyle t p o).payload
                  (applyMuts cfg (unifyObjectStyle t p o).payload
                    s.state entry)))) := by
  have h := commit_cases cfg s t p o
  constructor
  · intro hE
    rw [h, hE]
  · intro entry hE
    rw [h, hE]

/-- Handler interpretation shared by the concrete witnesses: mutation
handler `hid` adds `hid` to the state; action handler `1` returns an
awaitable that rejects at time 5, every other action handler returns the
plain value `3`. -/
def cfgW : StoreCfg :=
  ⟨fun hid st _ => st + hid,
   fun hid st _ =>
     (st, if hid = 1
          then .thenable ⟨.rejected (.str "e"), 5⟩
          else .plain (.num 3))⟩

/-- Concrete store shared by the witnesses: two mutation handlers under
`"inc"`, two action handlers under `"act"`, mutation subscribers 7 and 8,
action subscriber 5, state 10. -/
def storeW : Store :=
  ⟨false, [("inc", [3, 4])], [("act", [1, 2])], [7, 8], [5], 10⟩

/-- C3 witness: committing `"inc"` runs handlers 3 and 4 under the guard
and then notifies subscribers 7 and 8 with the final state 17; committing
an unknown type is a reported no-op. -/
theorem commit_spec_thm_witness :
    Store.commit cfgW storeW (.str "inc") (.num 1) .undefined =
      ({ storeW with state := 17 },
       [Ev.runMutation 3 (.num 1) true, Ev.runMutation 4 (.num 1) true,
        Ev.notifySubscriber 7 (.str "inc") (.num 1) 17,
        Ev.notifySubscriber 8 (.str "inc") (.num 1) 17])
  ∧ Store.commit cfgW storeW (.str "nope") .undefined .undefined =
      (storeW, [Ev.errorUnknownMutation (.str "nope")]) := by
  constructor
  · have h := (commit_spec_thm cfgW storeW (.str "inc") (.num 1) .undefined).2
      [3, 4] rfl
    exact h
  · exact (commit_spec_thm cfgW storeW (.str "nope") .undefined .undefined).1 rfl

/-- The threaded run of `entry.map(handler => handler(payload))`: final
state together with the awaitable-coerced results, in registration
order. -/
def runActs (cfg : StoreCfg) (payload : JSVal) : Nat → List Nat → Nat × List Promise
  | st, [] => (st, [])
  | st, h :: hs =>
    let r := cfg.runAct h st payload
    let rest := runActs cfg payload r.1 hs
    (rest.1, coerceToPromise r.2 :: rest.2)

theorem foldl_dispatchStep (cfg : StoreCfg) (payload : JSVal)
    (entry : List Nat) (s0 : Store) (evs0 : List Ev) (ps0 : List Promise) :
    entry.foldl (dispatchStep cfg payload) (s0, evs0, ps0) =
      ({ s0 with state := (runActs cfg payload s0.state entry).1 },
       evs0 ++ entry.map (fun h => Ev.runAction h payload),
       ps0 ++ (runActs cfg payload s0.state entry).2) := by
  induction entry generalizing s0 evs0 ps0 with
  | nil => simp [runActs]
  | cons h hs ih =>
    rw [List.foldl_cons]
    rw [show dispatchStep cfg payload (s0, evs0, ps0) h =
        ({ s0 with state := (cfg.runAct h s0.state payload).1 },
         evs0 ++ [Ev.runAction h payload],
         ps0 ++ [coerceToPromise (cfg.runAct h s0.state payload).2]) from rfl]
    rw [ih _ _ _]
    simp [runActs]

/-- `dispatch` in closed form: the unknown-type branch, the (unreachable)
empty-entry branch, the single-handler branch and the `Promise.all`
branch, each after the subscriber notifications. -/
theorem dispatch_cases (cfg : StoreCfg) (s : Store) (t p : JSVal) :
    Store.dispatch cfg s t p =
      match (unifyObjectStyle t p JSVal.undefined).type.asKey >>=
          findEntry s.actions with
      | none =>
        (s, none,
         [Ev.errorUnknownAction (unifyObjectStyle t p JSVal.undefined).type])
      | some entry =>
        let a := unifyObjectStyle t p JSVal.undefined
        let evs := s.actionSubscribers.map (fun sub =>
          Ev.notifyActionSubscriber sub a.type a.payload s.state)
        match entry with
        | [] => (s, none, evs)
        | [h] =>
          ({ s with state := (cfg.runAct h s.state a.payload).1 },
           some (coerceToPromise (cfg.runAct h s.state a.payload).2),
           evs ++ [Ev.runAction h a.payload])
        | h1 :: h2 :: hs =>
          ({ s with state :=
               (runActs cfg a.payload s.state (h1 :: h2 :: hs)).1 },
           some (promiseAll (runActs cfg a.payload s.state (h1 :: h2 :: hs)).2),
           evs ++ (h1 :: h2 :: hs).map (fun h => Ev.runAction h a.payload)) := by
  simp only [Store.dispatch]
  cases hE : (unifyObjectStyle t p JSVal.undefined).type.asKey >>=
      findEntry s.actions with
  | none => rfl
  | some entry =>
    simp only
    cases entry with
    | nil => rfl
    | cons h1 hs1 =>
      cases hs1 with
      | nil => rfl
      | cons h2 hs2 =>
        simp only []
        rw [foldl_dispatchStep]
        simp

/-- C1 counterexample: dispatching an unknown type (`"foo"`) on a store
with a registered action subscriber (subscriber 5 of `storeW`) produces
only the unknown-type diagnostic — no subscriber is notified — refuting
the claim that every `dispatch` call notifies all registered action
subscribers before the handler lookup is performed. -/
theorem dispatch_unknown_skips_subscribers_ce :
    storeW.actionSubscribers = [5]
  ∧ (Store.dispatch cfgW storeW (.str "foo") .undefined).2.2 =
      [Ev.errorUnknownAction (.str "foo")]
  ∧ (Store.dispatch cfgW storeW (.str "foo") .undefined).2.2.filter
      Ev.isActionNotify = []
  ∧ ([5] : List Nat) ≠ [] :=
  ⟨rfl, rfl, rfl, by decide⟩

/-- C1 (amended): `dispatch` normalizes its arguments and performs the
handler lookup first; when the lookup succeeds, every registered action
subscriber is notified, in subscription order, with the `{type, payload}`
record and the current state before any action handler starts (the trace
is exactly the notifications followed by handler-run events); when no
handler is registered for the type, no subscriber is notified: the call
reports the unknown-type diagnostic, leaves the store (in particular the
state) unchanged, and its result is `undefined` (`none`). -/
theorem dispatch_subscriber_order (cfg : StoreCfg) (s : Store) (t p : JSVal) :
    ((unifyObjectStyle t p JSVal.undefined).type.asKey >>= findEntry s.actions =
         none →
       Store.dispatch cfg s t p =
         (s, none,
          [Ev.errorUnknownAction (unifyObjectStyle t p JSVal.undefined).type]))
  ∧ (∀ entry,
       (unifyObjectStyle t p JSVal.undefined).type.asKey >>= findEntry s.actions =
           some entry →
       ∃ runEvs,
         (Store.dispatch cfg s t p).2.2 =
           s.actionSubscribers.map (fun sub =>
             Ev.notifyActionSubscriber sub
               (unifyObjectStyle t p JSVal.undefined).type
               (unifyObjectStyle t p JSVal.undefined).payload s.state) ++ runEvs
         ∧ ∀ e ∈ runEvs, e.isRunAction = true) := by
  have h := dispatch_cases cfg s t p
  constructor
  · intro hE
    rw [h, hE]
  · intro entry hE
    rw [h, hE]
    cases entry with
    | nil => exact ⟨[], by simp, by simp⟩
    | cons h1 hs1 =>
      cases hs1 with
      | nil =>
        refine ⟨[Ev.runAction h1 (unifyObjectStyle t p JSVal.undefined).payload],
          by simp, ?_⟩
        intro e he
        simp at he
        subst he
        rfl
      | cons h2 hs2 =>
        refine ⟨(h1 :: h2 :: hs2).map (fun hh =>
          Ev.runAction hh (unifyObjectStyle t p JSVal.undefined).payload),
          by simp, ?_⟩
        intro e he
        simp at he
        rcases he with rfl | rfl | ⟨hh, hmem, rfl⟩ <;> rfl

/-- C1 witness: dispatching `"act"` on `storeW` — the trace starts with
the notification of subscriber 5 (with the pre-dispatch state 10) and
continues with handler-run events only. -/
theorem dispatch_subscriber_order_witness :
    ∃ runEvs,
      (Store.dispatch cfgW storeW (.str "act") (.num 2)).2.2 =
        [Ev.notifyActionSubscriber 5 (.str "act") (.num 2) 10] ++ runEvs
      ∧ ∀ e ∈ runEvs, e.isRunAction = true :=
  (dispatch_subscriber_order cfgW storeW (.str "act") (.num 2)).2 [1, 2] rfl

theorem foldl_max_le_init (l : List Nat) (a : Nat) : a ≤ l.foldl max a := by
  induction l generalizing a with
  | nil => simp
  | cons x xs ih => exact le_trans (le_max_left a x) (ih (max a x))

theorem mem_le_foldl_max (l : List Nat) (x : Nat) (hx : x ∈ l) :
    ∀ a, x ≤ l.foldl max a := by
  induction l with
  | nil => cases hx
  | cons y ys ih =>
    intro a
    rcases List.mem_cons.mp hx with rfl | hmem
    · exact le_trans (le_max_right a x) (foldl_max_le_init ys (max a x))
    · exact ih hmem (max a y)

theorem earliestSettled_eq_none (l : List Promise) :
    earliestSettled l = none ↔ l = [] := by
  cases l with
  | nil => simp [earliestSettled]
  | cons p ps =>
    simp only [earliestSettled]
    cases earliestSettled ps <;> simp

theorem earliestSettled_mem (l : List Promise) (q : Promise)
    (h : earliestSettled l = some q) : q ∈ l := by
  induction l generalizing q with
  | nil => simp [earliestSettled] at h
  | cons p ps ih =>
    simp only [earliestSettled] at h
    cases hps : earliestSettled ps with
    | none =>
      rw [hps] at h
      simp at h
      subst h
      exact List.mem_cons_self p ps
    | some q2 =>
      rw [hps] at h
      simp at h
      by_cases hle : p.time ≤ q2.time
      · rw [if_pos hle] at h
        subst h
        exact List.mem_cons_self p ps
      · rw [if_neg hle] at h
        subst h
        exact List.mem_cons_of_mem p (ih q2 hps)

theorem earliestSettled_le (l : List Promise) (q : Promise)
    (h : earliestSettled l = some q) : ∀ w ∈ l, q.time ≤ w.time := by
  induction l generalizing q with
  | nil => simp [earliestSettled] at h
  | cons p ps ih =>
    intro w hw
    simp only [earliestSettled] at h
    cases hps : earliestSettled ps with
    | none =>
      have hnil : ps = [] := (earliestSettled_eq_none ps).mp hps
      subst hnil
      rw [hps] at h
      simp at h
      subst h
      rcases List.mem_cons.mp hw with rfl | hmem
      · exact le_refl _
      · cases hmem
    | some q2 =>
      rw [hps] at h
      simp at h
      have hq2 := ih q2 hps
      by_cases hle : p.time ≤ q2.time
      · rw [if_pos hle] at h
        subst h
        rcases List.mem_cons.mp hw with rfl | hmem
        · exact le_refl _
        · exact le_trans hle (hq2 w hmem)
      · rw [if_neg hle] at h
        subst h
        rcases List.mem_cons.mp hw with rfl | hmem
        · exact le_of_lt (lt_of_not_le hle)
        · exact hq2 w hmem

theorem promiseAll_fulfilled (ps : List Promise)
    (h : ∀ w ∈ ps, w.isRejected = false) :
    (∃ vs, (promiseAll ps).outcome = Outcome.fulfilled vs)
  ∧ ∀ w ∈ ps, w.time ≤ (promiseAll ps).time := by
  have hf : ps.filter Promise.isRejected = [] := by
    rw [List.filter_eq_nil_iff]
    intro a ha
    simp [h a ha]
  unfold promiseAll
  rw [hf]
  simp only [earliestSettled]
  constructor
  · exact ⟨_, rfl⟩
  · intro w hw
    exact mem_le_foldl_max (ps.map Promise.time) w.time
      (List.mem_map_of_mem Promise.time hw) 0

theorem promiseAll_rejected (ps : List Promise) (w : Promise)
    (hw : w ∈ ps) (hr : w.isRejected = true) :
    (promiseAll ps).isRejected = true ∧ (promiseAll ps).time ≤ w.time := by
  have hwf : w ∈ ps.filter Promise.isRejected := List.mem_filter.mpr ⟨hw, hr⟩
  have hne : ps.filter Promise.isRejected ≠ [] := List.ne_nil_of_mem hwf
  cases hq : earliestSettled (ps.filter Promise.isRejected) with
  | none => exact absurd ((earliestSettled_eq_none _).mp hq) hne
  | some q =>
    have hqmem := earliestSettled_mem _ q hq
    have hqrej : q.isRejected = true := (List.mem_filter.mp hqmem).2
    have hqle := earliestSettled_le _ q hq w hwf
    unfold promiseAll
    rw [hq]
    constructor
    · simpa [Promise.isRejected] using hqrej
    · simpa using hqle

/-- C2: when exactly one handler is registered for the normalized type,
the dispatch result is that handler's awaitable-coerced return value
directly; when two or more are registered, all are invoked (the trace
ends with one handler-run event per registered handler, in registration
order) and the result is the single `Promise.all` aggregate over the
coerced results, which — by the modelled `Promise.all` semantics —
fulfils no earlier than the latest of the handler results when all
fulfil, and rejects as soon as any one rejects (its settle time is no
later than any rejecting handler's); in every case with a non-empty
entry the result is an awaitable (`isSome`), because each handler's
plain return value is coerced with `Promise.resolve`. -/
theorem dispatch_result_aggregation (cfg : StoreCfg) (s : Store) (t p : JSVal) :
    (∀ h1,
       (unifyObjectStyle t p JSVal.undefined).type.asKey >>= findEntry s.actions =
           some [h1] →
       (Store.dispatch cfg s t p).2.1 =
         some (coerceToPromise
           (cfg.runAct h1 s.state
             (unifyObjectStyle t p JSVal.undefined).payload).2))
  ∧ (∀ entry,
       (unifyObjectStyle t p JSVal.undefined).type.asKey >>= findEntry s.actions =
           some entry →
       2 ≤ entry.length →
       ((Store.dispatch cfg s t p).2.1 =
          some (promiseAll
            (runActs cfg (unifyObjectStyle t p JSVal.undefined).payload
              s.state entry).2)
        ∧ (Store.dispatch cfg s t p).2.2 =
            s.actionSubscribers.map (fun sub =>
              Ev.notifyActionSubscriber sub
                (unifyObjectStyle t p JSVal.undefined).type
                (unifyObjectStyle t p JSVal.undefined).payload s.state)
              ++ entry.map (fun hh =>
                  Ev.runAction hh (unifyObjectStyle t p JSVal.undefined).payload)
        ∧ ((∀ w ∈ (runActs cfg (unifyObjectStyle t p JSVal.undefined).payload
                s.state entry).2, w.isRejected = false) →
             (∃ vs, (promiseAll (runActs cfg
                 (unifyObjectStyle t p JSVal.undefined).payload
                 s.state entry).2).outcome = Outcome.fulfilled vs)
             ∧ ∀ w ∈ (runActs cfg (unifyObjectStyle t p JSVal.undefined).payload
                 s.state entry).2,
                 w.time ≤ (promiseAll (runActs cfg
                   (unifyObjectStyle t p JSVal.undefined).payload
                   s.state entry).2).time)
        ∧ (∀ w ∈ (runActs cfg (unifyObjectStyle t p JSVal.undefined).payload
              s.state entry).2, w.isRejected = true →
             (promiseAll (runActs cfg
                 (unifyObjectStyle t p JSVal.undefined).payload
                 s.state entry).2).isRejected = true
             ∧ (promiseAll (runActs cfg
                 (unifyObjectStyle t p JSVal.undefined).payload
                 s.state entry).2).time ≤ w.time)))
  ∧ (∀ entry,
       (unifyObjectStyle t p JSVal.undefined).type.asKey >>= findEntry s.actions =
           some entry →
       entry ≠ [] →
       ((Store.dispatch cfg s t p).2.1).isSome = true) := by
  have hd := dispatch_cases cfg s t p
  refine ⟨?_, ?_, ?_⟩
  · intro h1 hE
    rw [hd, hE]
  · intro entry hE hlen
    cases entry with
    | nil => simp at hlen
    | cons h1 hs1 =>
      cases hs1 with
      | nil => simp at hlen
      | cons h2 hs2 =>
        refine ⟨?_, ?_, ?_, ?_⟩
        · rw [hd, hE]
        · rw [hd, hE]
        · intro hall
          exact promiseAll_fulfilled _ hall
        · intro w hw hr
          exact promiseAll_rejected _ w hw hr
  · intro entry hE hne
    cases entry with
    | nil => exact absurd rfl hne
    | cons h1 hs1 =>
      cases hs1 with
      | nil => rw [hd, hE]; rfl
      | cons h2 hs2 => rw [hd, hE]; rfl

/-- C2 witness: dispatching `"act"` on `storeW` (two handlers: handler 1
returns an awaitable rejecting at time 5, handler 2 a plain value): the
result is the `Promise.all` aggregate and it is an awaitable. -/
theorem dispatch_result_aggregation_witness :
    (Store.dispatch cfgW storeW (.str "act") (.num 2)).2.1 =
      some (promiseAll (runActs cfgW (.num 2) 10 [1, 2]).2)
  ∧ ((Store.dispatch cfgW storeW (.str "act") (.num 2)).2.1).isSome = true := by
  have h := dispatch_result_aggregation cfgW storeW (.str "act") (.num 2)
  exact ⟨(h.2.1 [1, 2] rfl (by decide)).1, h.2.2 [1, 2] rfl (by decide)⟩

theorem commit_trace_payload (cfg : StoreCfg) (s : Store) (t p o : JSVal) :
    ∀ e ∈ (Store.commit cfg s t p o).2,
      e.payloadOf = none ∨
        e.payloadOf = some (unifyObjectStyle t p o).payload := by
  intro e he
  rw [commit_cases cfg s t p o] at he
  cases hE : (unifyObjectStyle t p o).type.asKey >>= findEntry s.mutations with
  | none =>
    rw [hE] at he
    simp at he
    subst he
    exact Or.inl rfl
  | some entry =>
    rw [hE] at he
    simp at he
    rcases he with ⟨hid, hmem, rfl⟩ | ⟨sub, hmem, rfl⟩
    · exact Or.inr rfl
    · exact Or.inr rfl

theorem dispatch_trace_payload (cfg : StoreCfg) (s : Store) (t p : JSVal) :
    ∀ e ∈ (Store.dispatch cfg s t p).2.2,
      e.payloadOf = none ∨
        e.payloadOf = some (unifyObjectStyle t p JSVal.undefined).payload := by
  intro e he
  rw [dispatch_cases cfg s t p] at he
  cases hE : (unifyObjectStyle t p JSVal.undefined).type.asKey >>=
      findEntry s.actions with
  | none =>
    rw [hE] at he
    simp at he
    subst he
    exact Or.inl rfl
  | some entry =>
    rw [hE] at he
    cases entry with
    | nil =>
      simp at he
      obtain ⟨sub, hmem, rfl⟩ := he
      exact Or.inr rfl
    | cons h1 hs1 =>
      cases hs1 with
      | nil =>
        simp at he
        rcases he with ⟨sub, hmem, rfl⟩ | rfl
        · exact Or.inr rfl
        · exact Or.inr rfl
      | cons h2 hs2 =>
        simp at he
        rcases he with ⟨sub, hmem, rfl⟩ | rfl | rfl | ⟨hh, hmem, rfl⟩
        · exact Or.inr rfl
        · exact Or.inr rfl
        · exact Or.inr rfl
        · exact Or.inr rfl

/-- C10: a `commit` or `dispatch` whose first argument is an object with
a truthy `type` property is normalized so that the object's `type` field
becomes the type, the whole object — `type` field included — becomes the
payload (every payload-carrying event of the call delivers exactly that
object), and for `commit` the second positional argument becomes the
options argument. -/
theorem object_style_normalization (fields : List (String × JSVal))
    (p o : JSVal) (h : ((JSVal.obj fields).getField "type").truthy = true) :
    unifyObjectStyle (.obj fields) p o =
      { type := (JSVal.obj fields).getField "type",
        payload := .obj fields, options := p }
  ∧ (∀ (cfg : StoreCfg) (s : Store),
       ∀ e ∈ (Store.commit cfg s (.obj fields) p o).2,
         e.payloadOf = none ∨ e.payloadOf = some (.obj fields))
  ∧ (∀ (cfg : StoreCfg) (s : Store),
       ∀ e ∈ (Store.dispatch cfg s (.obj fields) p).2.2,
         e.payloadOf = none ∨ e.payloadOf = some (.obj fields)) := by
  have hcond : (isObject (.obj fields) &&
      ((JSVal.obj fields).getField "type").truthy) = true := by
    simp [isObject, h]
  have hu : ∀ o' : JSVal, unifyObjectStyle (.obj fields) p o' =
      { type := (JSVal.obj fields).getField "type",
        payload := .obj fields, options := p } := by
    intro o'
    unfold unifyObjectStyle
    rw [if_pos hcond]
  refine ⟨hu o, ?_, ?_⟩
  · intro cfg s e he
    have hp := commit_trace_payload cfg s (.obj fields) p o e he
    rwa [hu o] at hp
  · intro cfg s e he
    have hp := dispatch_trace_payload cfg s (.obj fields) p e he
    rwa [hu JSVal.undefined] at hp

/-- C10 witness: the normalization evaluated on the concrete object
`{type: "inc", n: 1}` with second positional argument `5`. -/
theorem object_style_normalization_witness :
    unifyObjectStyle (.obj [("type", .str "inc"), ("n", .num 1)])
        (.num 5) .undefined =
      { type := .str "inc",
        payload := .obj [("type", .str "inc"), ("n", .num 1)],
        options := .num 5 } :=
  (object_style_normalization [("type", .str "inc"), ("n", .num 1)]
    (.num 5) .undefined (by decide)).1

/-- The nodes visited along a path, root-to-leaf: the child reached at
each step (the root itself is not on the path, matching the namespace
walk, which never consults the root's own flag). -/
def chainNodes : Module → List String → Option (List Module)
  | _, [] => some []
  | m, k :: ks =>
    (m.getChild k).bind (fun c =>
      (chainNodes c ks).map (fun ns => c :: ns))

theorem stringJoin_nil : String.join ([] : List String) = "" := by
  apply String.ext
  simp [String.data_join]

theorem stringJoin_cons (a : String) (l : List String) :
    String.join (a :: l) = a ++ String.join l := by
  apply String.ext
  simp [String.data_join, String.data_append]

theorem nsStep_foldl (path : List String) :
    ∀ (m : Module) (ns : List Module) (acc : String),
      chainNodes m path = some ns →
      (path.foldl nsStep (some m, acc)).2 =
        acc ++ String.join (List.zipWith
          (fun k (c : Module) => if c.namespaced then k ++ "/" else "")
          path ns) := by
  induction path with
  | nil =>
    intro m ns acc h
    simp [chainNodes] at h
    subst h
    simp [stringJoin_nil, String.append_empty]
  | cons k ks ih =>
    intro m ns acc h
    simp only [chainNodes] at h
    cases hc : m.getChild k with
    | none =>
      rw [hc] at h
      simp at h
    | some c =>
      rw [hc] at h
      simp at h
      obtain ⟨ns', hns', rfl⟩ := h
      rw [List.foldl_cons]
      rw [show nsStep (some m, acc) k =
          (some c, acc ++ (if c.namespaced then k ++ "/" else "")) from by
        simp [nsStep, hc]]
      rw [ih c ns' _ hns']
      rw [List.zipWith_cons_cons, stringJoin_cons, String.append_assoc]

theorem join_zip_empty (path : List String) :
    ∀ ns : List Module, (∀ m ∈ ns, m.namespaced = false) →
      String.join (List.zipWith (fun k (m : Module) =>
        if m.namespaced then k ++ "/" else "") path ns) = "" := by
  induction path with
  | nil =>
    intro ns h
    simp [stringJoin_nil]
  | cons k ks ih =>
    intro ns h
    cases ns with
    | nil => simp [stringJoin_nil]
    | cons m ms =>
      rw [List.zipWith_cons_cons, stringJoin_cons,
        if_neg (by simp [h m (List.mem_cons_self m ms)]),
        String.empty_append]
      exact ih ms (fun x hx => h x (List.mem_cons_of_mem m hx))

/-- C6: for every path that resolves (every step finds a child),
`getNamespace(path)` is the concatenation, in root-to-leaf order, of
`key + '/'` for each node along the path whose `namespaced` flag is
true, and is the empty string when no node along the path is
namespaced. -/
theorem getNamespace_concat (c : ModuleCollection) (path : List String)
    (ns : List Module) (h : chainNodes c.root path = some ns) :
    c.getNamespace path =
      String.join (List.zipWith
        (fun k (m : Module) => if m.namespaced then k ++ "/" else "")
        path ns)
  ∧ ((∀ m ∈ ns, m.namespaced = false) → c.getNamespace path = "") := by
  have h1 : c.getNamespace path =
      String.join (List.zipWith
        (fun k (m : Module) => if m.namespaced then k ++ "/" else "")
        path ns) := by
    unfold ModuleCollection.getNamespace
    rw [nsStep_foldl path c.root ns "" h, String.empty_append]
  refine ⟨h1, fun hall => ?_⟩
  rw [h1]
  exact join_zip_empty path ns hall

/-- Concrete two-level tree for the namespace witness: the root has a
namespaced child `a`, which has a non-namespaced child `b`. -/
def rawNil : RawModule := .mk false none none none none none

def rawNsp : RawModule := .mk true none none none none none

def mcW : ModuleCollection :=
  ⟨(Module.ofRaw rawNil false).addChild "a"
     ((Module.ofRaw rawNsp false).addChild "b" (Module.ofRaw rawNil false))⟩

/-- C6 witness: on the concrete tree, the namespace of `["a", "b"]` is
the join of `"a/"` (for the namespaced `a`) and `""` (for `b`), and the
namespace of the empty path is empty. -/
theorem getNamespace_concat_witness :
    mcW.getNamespace ["a", "b"] = String.join ["a/", ""]
  ∧ mcW.getNamespace [] = "" :=
  ⟨(getNamespace_concat mcW ["a", "b"]
      [(Module.ofRaw rawNsp false).addChild "b" (Module.ofRaw rawNil false),
       Module.ofRaw rawNil false] rfl).1,
   (getNamespace_concat mcW [] [] rfl).2 (by simp)⟩

theorem updateTree_none (t : Module) (r : RawModule)
    (h : r.modulesF = none) : updateTree t r = (t.update r, []) := by
  rw [updateTree]
  split
  · rfl
  · rename_i kids heq
    rw [h] at heq
    cases heq

theorem updateTree_some (t : Module) (r : RawModule)
    (kids : List (String × RawModule)) (h : r.modulesF = some kids) :
    updateTree t r = updateKids (t.update r) kids := by
  rw [updateTree]
  split
  · rename_i heq
    rw [h] at heq
    cases heq
  · rename_i kids2 heq
    rw [h] at heq
    cases heq
    rfl

theorem updateKids_missing (t : Module) (k : String) (rk : RawModule)
    (rest : List (String × RawModule)) (h : t.getChild k = none) :
    updateKids t ((k, rk) :: rest) = (t, [k]) := by
  rw [updateKids]
  simp [h]

theorem updateKids_found (t : Module) (k : String) (rk : RawModule)
    (rest : List (String × RawModule)) (c : Module)
    (h : t.getChild k = some c) :
    updateKids t ((k, rk) :: rest) =
      ((updateKids (t.addChild k (updateTree c rk).1) rest).1,
       (updateTree c rk).2 ++
         (updateKids (t.addChild k (updateTree c rk).1) rest).2) := by
  rw [updateKids]
  simp [h]

/-- Concrete raw definitions for the hot-update counterexample: three
single-table leaves carrying distinct mutation handlers. -/
def rawMutsB1 : RawModule := .mk false none none (some [("m", 1)]) none none

def rawMutsB2 : RawModule := .mk false none none (some [("m", 2)]) none none

def rawMutsA9 : RawModule := .mk false none none (some [("m", 9)]) none none

/-- Live tree for the hot-update counterexample: the root has a single
child `b` whose mutations table is `[("m", 1)]`. -/
def ceTarget : Module :=
  (Module.ofRaw rawNil false).addChild "b" (Module.ofRaw rawMutsB1 false)

/-- New hot-update definition: the modules map lists the brand-new child
`a` first and the existing child `b` (with a changed mutations table)
second. -/
def ceNew : RawModule :=
  .mk false none none none none (some [("a", rawMutsA9), ("b", rawMutsB2)])

/-- C4 counterexample: hot-updating `ceTarget` with `ceNew` warns about
the new module `a` and leaves it unregistered (as the claim says), but
the `return` in the source also ends the whole loop over the modules
map, so the sibling branch `b` — present in both the live tree and the
new definition — keeps its old mutations table `[("m", 1)]` instead of
receiving `[("m", 2)]`: updates of the other sibling branches do not
take place. -/
theorem hotupdate_missing_child_ce :
    (updateTree ceTarget ceNew).2 = ["a"]
  ∧ (updateTree ceTarget ceNew).1.getChild "a" = none
  ∧ ((updateTree ceTarget ceNew).1.getChild "b").map
      (fun m => m.rawOf.mutationsF) = some (some [("m", 1)])
  ∧ (some (some [("m", 1)]) : Option (Option (List (String × Nat)))) ≠
      some (some [("m", 2)]) := by
  have h1 : updateTree ceTarget ceNew = (ceTarget.update ceNew, ["a"]) := by
    rw [updateTree_some ceTarget ceNew [("a", rawMutsA9), ("b", rawMutsB2)] rfl]
    exact updateKids_missing _ _ _ _ rfl
  rw [h1]
  exact ⟨rfl, rfl, rfl, by decide⟩

/-- C4 (amended): when a child key of the new definition's modules map
has no matching child in the live tree, the parent's own update is still
applied and a warning is emitted, the new child module is not
registered, and the loop over that modules map stops at that key —
sibling entries listed before the missing key are updated recursively,
but sibling entries after it are not updated (the whole remaining
iteration at that level is aborted, not just the missing branch). -/
theorem hotupdate_abort_amended (t : Module) (r : RawModule) (k : String)
    (rk : RawModule) (rest : List (String × RawModule)) :
    (r.modulesF = some ((k, rk) :: rest) →
       (t.update r).getChild k = none →
       updateTree t r = (t.update r, [k]))
  ∧ (∀ (t' : Module) (c : Module), t'.getChild k = some c →
       updateKids t' ((k, rk) :: rest) =
         ((updateKids (t'.addChild k (updateTree c rk).1) rest).1,
          (updateTree c rk).2 ++
            (updateKids (t'.addChild k (updateTree c rk).1) rest).2)) := by
  constructor
  · intro hm hc
    rw [updateTree_some t r ((k, rk) :: rest) hm]
    exact updateKids_missing _ _ _ _ hc
  · intro t' c hc
    exact updateKids_found t' k rk rest c hc

/-- C4 witness: both branches of the amended theorem evaluated on the
concrete counterexample tree — the abort at the missing `a`, and one
found-child loop step at `b`. -/
theorem hotupdate_abort_amended_witness :
    updateTree ceTarget ceNew = (ceTarget.update ceNew, ["a"])
  ∧ updateKids ceTarget [("b", rawMutsB2)] =
      ((updateKids (ceTarget.addChild "b"
          (updateTree (Module.ofRaw rawMutsB1 false) rawMutsB2).1) []).1,
       (updateTree (Module.ofRaw rawMutsB1 false) rawMutsB2).2 ++
         (updateKids (ceTarget.addChild "b"
           (updateTree (Module.ofRaw rawMutsB1 false) rawMutsB2).1) []).2) := by
  constructor
  · exact (hotupdate_abort_amended ceTarget ceNew "a" rawMutsA9
      [("b", rawMutsB2)]).1 rfl rfl
  · exact (hotupdate_abort_amended ceTarget ceNew "b" rawMutsB2 []).2
      ceTarget (Module.ofRaw rawMutsB1 false) rfl

theorem foldl_getChild_none (path : List String) :
    path.foldl (fun om key => om.bind (fun mm => mm.getChild key))
      (none : Option Module) = none := by
  induction path with
  | nil => rfl
  | cons k ks ih => simpa using ih

theorem foldl_getChild_eq_nodeAt (path : List String) :
    ∀ m : Module,
      path.foldl (fun om key => om.bind (fun mm => mm.getChild key))
        (some m) = nodeAt m path := by
  induction path with
  | nil => intro m; rfl
  | cons k ks ih =>
    intro m
    rw [List.foldl_cons]
    cases hc : m.getChild k with
    | none =>
      simp [nodeAt, hc, foldl_getChild_none ks]
    | some c2 =>
      simp [nodeAt, hc, ih c2]

theorem get_eq_nodeAt (c : ModuleCollection) (path : List String) :
    c.get path = nodeAt c.root path :=
  foldl_getChild_eq_nodeAt path c.root

theorem nodeAt_append (a b : List String) :
    ∀ m : Module,
      nodeAt m (a ++ b) = (nodeAt m a).bind (fun x => nodeAt x b) := by
  induction a with
  | nil => intro m; simp [nodeAt]
  | cons k ks ih =>
    intro m
    simp only [List.cons_append, nodeAt]
    cases hc : m.getChild k with
    | none => simp
    | some c => simp [ih c]

theorem modifyAt_spec (q : List String) :
    ∀ (root p : Module) (f : Module → Module),
      nodeAt root q = some p →
      ∃ root', modifyAt root q f = some root' ∧
        nodeAt root' q = some (f p) := by
  induction q with
  | nil =>
    intro root p f h
    simp [nodeAt] at h
    subst h
    exact ⟨f root, rfl, rfl⟩
  | cons k ks ih =>
    intro root p f h
    simp only [nodeAt] at h
    cases hc : root.getChild k with
    | none =>
      rw [hc] at h
      simp at h
    | some c =>
      rw [hc] at h
      simp at h
      obtain ⟨root2, hmod, hnode⟩ := ih c p f h
      refine ⟨root.addChild k root2, ?_, ?_⟩
      · simp [modifyAt, hc, hmod]
      · simp [nodeAt, getChild_addChild_self, hnode]

theorem registerAt_nodeAt (path : List String) :
    ∀ (root nm root' : Module),
      registerAt root path nm = some root' →
      nodeAt root' path = some nm := by
  induction path with
  | nil =>
    intro root nm root' h
    simp [registerAt] at h
  | cons k ks ih =>
    intro root nm root' h
    cases ks with
    | nil =>
      simp [registerAt] at h
      subst h
      simp [nodeAt, getChild_addChild_self]
    | cons k2 ks2 =>
      simp only [registerAt] at h
      cases hc : root.getChild k with
      | none =>
        rw [hc] at h
        simp at h
      | some c =>
        rw [hc] at h
        simp at h
        obtain ⟨c', hreg, rfl⟩ := h
        simp [nodeAt, getChild_addChild_self]
        exact ih c nm c' hreg

/-- The per-node fields that identify a registered module: its runtime
flag, its raw definition and its state slice (child wiring may still
grow underneath the node). -/
def sameFields (a b : Module) : Prop :=
  a.runtimeOf = b.runtimeOf ∧ a.rawOf = b.rawOf ∧ a.stateOf = b.stateOf

theorem sameFields_addChild (m : Module) (k : String) (c : Module) :
    sameFields m (m.addChild k c) := by
  obtain ⟨h1, h2, h3⟩ := addChild_fields m k c
  exact ⟨h1.symm, h2.symm, h3.symm⟩

theorem sameFields_trans {a b c : Module}
    (h1 : sameFields a b) (h2 : sameFields b c) : sameFields a c :=
  ⟨h1.1.trans h2.1, h1.2.1.trans h2.2.1, h1.2.2.trans h2.2.2⟩

theorem registerAt_keeps_ancestor (p : List String) :
    ∀ (rest : List String) (root nm root' mp : Module), rest ≠ [] →
      registerAt root (p ++ rest) nm = some root' →
      nodeAt root p = some mp →
      ∃ mp', nodeAt root' p = some mp' ∧ sameFields mp mp' := by
  induction p with
  | nil =>
    intro rest root nm root' mp hrest hreg hnode
    simp [nodeAt] at hnode
    subst hnode
    refine ⟨root', rfl, ?_⟩
    cases rest with
    | nil => exact absurd rfl hrest
    | cons k ks =>
      cases ks with
      | nil =>
        simp [registerAt] at hreg
        subst hreg
        exact sameFields_addChild root k nm
      | cons k2 ks2 =>
        simp only [List.nil_append, registerAt] at hreg
        cases hc : root.getChild k with
        | none =>
          rw [hc] at hreg
          simp at hreg
        | some c =>
          rw [hc] at hreg
          simp at hreg
          obtain ⟨c', hregc, rfl⟩ := hreg
          exact sameFields_addChild root k c'
  | cons a p' ih =>
    intro rest root nm root' mp hrest hreg hnode
    have hne : p' ++ rest ≠ [] := by
      intro hx
      exact hrest (List.append_eq_nil.mp hx).2
    cases hpr : p' ++ rest with
    | nil => exact absurd hpr hne
    | cons b l =>
      rw [List.cons_append, hpr] at hreg
      simp only [registerAt] at hreg
      cases hc : root.getChild a with
      | none =>
        rw [hc] at hreg
        simp at hreg
      | some c =>
        rw [hc] at hreg
        simp at hreg
        obtain ⟨c', hregc, rfl⟩ := hreg
        simp only [nodeAt] at hnode
        rw [hc] at hnode
        simp at hnode
        rw [← hpr] at hregc
        obtain ⟨mp', hn', hsf⟩ := ih rest c nm c' mp hrest hregc hnode
        refine ⟨mp', ?_, hsf⟩
        simp [nodeAt, getChild_addChild_self, hn']

theorem registerJobs_nil (rt : Bool) (c : Option ModuleCollection) :
    registerJobs rt c [] = c := by
  rw [registerJobs]

theorem registerJobs_none_any (rt : Bool)
    (jobs : List (List String × RawModule)) :
    registerJobs rt none jobs = none := by
  cases jobs with
  | nil => rw [registerJobs]
  | cons j rest => rw [registerJobs]

theorem registerJobs_cons_some (rt : Bool) (cc : ModuleCollection)
    (path : List String) (raw : RawModule)
    (rest : List (List String × RawModule)) :
    registerJobs rt (some cc) ((path, raw) :: rest) =
      registerJobs rt
        (if path = [] then some ⟨Module.ofRaw raw rt⟩
         else (registerAt cc.root path (Module.ofRaw raw rt)).map
           (fun r => ⟨r⟩))
        (childJobs path raw ++ rest) := by
  rw [registerJobs]

theorem childJobs_ext (p2 : List String) (raw : RawModule) :
    ∀ j ∈ childJobs p2 raw, ∃ s, s ≠ [] ∧ j.1 = p2 ++ s := by
  intro j hj
  unfold childJobs at hj
  cases hm : raw.modulesF with
  | none =>
    rw [hm] at hj
    cases hj
  | some kids =>
    rw [hm] at hj
    obtain ⟨kv, hkv, rfl⟩ := List.mem_map.mp hj
    exact ⟨[kv.1], by simp, rfl⟩

theorem registerJobs_preserves_aux (rt : Bool) (n : Nat) :
    ∀ (jobs : List (List String × RawModule)) (c : ModuleCollection)
      (path : List String) (mp : Module) (c' : ModuleCollection),
      jobsSize jobs ≤ n →
      (∀ j ∈ jobs, ∃ s, s ≠ [] ∧ j.1 = path ++ s) →
      nodeAt c.root path = some mp →
      registerJobs rt (some c) jobs = some c' →
      ∃ mp', nodeAt c'.root path = some mp' ∧ sameFields mp mp' := by
  induction n with
  | zero =>
    intro jobs c path mp c' hn hext hnode hreg
    cases jobs with
    | nil =>
      rw [registerJobs_nil] at hreg
      cases hreg
      exact ⟨mp, hnode, ⟨rfl, rfl, rfl⟩⟩
    | cons j rest =>
      obtain ⟨p2, raw⟩ := j
      simp only [jobsSize] at hn
      have := rawSize_pos raw
      omega
  | succ n ih =>
    intro jobs c path mp c' hn hext hnode hreg
    cases jobs with
  | nil =>
    rw [registerJobs_nil] at hreg
    cases hreg
    exact ⟨mp, hnode, ⟨rfl, rfl, rfl⟩⟩
  | cons j rest =>
    obtain ⟨p2, raw⟩ := j
    rw [registerJobs_cons_some] at hreg
    obtain ⟨s2, hs2ne, hs2pre⟩ := hext (p2, raw) (List.mem_cons_self _ _)
    have hs2 : p2 = path ++ s2 := hs2pre
    have hp2ne : p2 ≠ [] := by
      rw [hs2]
      intro hx
      exact hs2ne (List.append_eq_nil.mp hx).2
    rw [if_neg hp2ne] at hreg
    cases hra : registerAt c.root p2 (Module.ofRaw raw rt) with
    | none =>
      rw [hra] at hreg
      simp only [Option.map_none'] at hreg
      rw [registerJobs_none_any] at hreg
      cases hreg
    | some r2 =>
      rw [hra] at hreg
      simp only [Option.map_some'] at hreg
      rw [hs2] at hra
      obtain ⟨mp2, hn2, hsf2⟩ :=
        registerAt_keeps_ancestor path s2 c.root (Module.ofRaw raw rt)
          r2 mp hs2ne hra hnode
      have hext' : ∀ j ∈ childJobs p2 raw ++ rest,
          ∃ s, s ≠ [] ∧ j.1 = path ++ s := by
        intro j hj
        rcases List.mem_append.mp hj with hj1 | hj2
        · obtain ⟨s, hsne, hj1eq⟩ := childJobs_ext p2 raw j hj1
          refine ⟨s2 ++ s, ?_, ?_⟩
          · intro hx
            exact hsne (List.append_eq_nil.mp hx).2
          · rw [hj1eq, hs2, List.append_assoc]
        · exact hext j (List.mem_cons_of_mem _ hj2)
      have hn' : jobsSize (childJobs p2 raw ++ rest) ≤ n := by
        rw [jobsSize_append]
        simp only [jobsSize] at hn
        have h := childJobs_size_lt p2 raw
        omega
      obtain ⟨mp', hnn, hsf'⟩ := ih (childJobs p2 raw ++ rest) ⟨r2⟩ path
        mp2 c' hn' hext' hn2 hreg
      exact ⟨mp', hnn, sameFields_trans hsf2 hsf'⟩

theorem registerJobs_preserves (rt : Bool)
    (jobs : List (List String × RawModule)) (c : ModuleCollection)
    (path : List String) (mp : Module) (c' : ModuleCollection)
    (hext : ∀ j ∈ jobs, ∃ s, s ≠ [] ∧ j.1 = path ++ s)
    (hnode : nodeAt c.root path = some mp)
    (hreg : registerJobs rt (some c) jobs = some c') :
    ∃ mp', nodeAt c'.root path = some mp' ∧ sameFields mp mp' :=
  registerJobs_preserves_aux rt (jobsSize jobs) jobs c path mp c'
    (le_refl _) hext hnode hreg

theorem nodeAt_singleton (m : Module) (k : String) :
    nodeAt m [k] = m.getChild k := by
  cases hc : m.getChild k <;> simp [nodeAt, hc]

/-- C7: `register(path, definition)` followed by `get(path)` returns the
just-registered node — the lookup succeeds and yields a node carrying the
given runtime flag, the given raw definition and the state computed from
it (its children are the definition's nested modules, attached by the
recursive registration); `unregister(path)` on a node whose `runtime`
flag is true detaches it, so a subsequent `get` on that path no longer
finds it; `unregister(path)` on a node whose `runtime` flag is false is
refused: the collection is returned unchanged and the node remains
present. -/
theorem register_get_unregister :
    (∀ (c : ModuleCollection) (path : List String) (raw : RawModule)
       (rt : Bool) (c' : ModuleCollection),
       c.register path raw rt = some c' →
       ∃ m, c'.get path = some m ∧ m.runtimeOf = rt ∧ m.rawOf = raw ∧
         m.stateOf = initState raw.stateF)
  ∧ (∀ (c : ModuleCollection) (path : List String) (child : Module),
       path ≠ [] → c.get path = some child → child.runtimeOf = true →
       ∃ c', c.unregister path = some c' ∧ c'.get path = none)
  ∧ (∀ (c : ModuleCollection) (path : List String) (child : Module),
       path ≠ [] → c.get path = some child → child.runtimeOf = false →
       c.unregister path = some c ∧ c.get path = some child) := by
  refine ⟨?_, ?_, ?_⟩
  · intro c path raw rt c' hreg
    unfold ModuleCollection.register at hreg
    rw [registerJobs_cons_some, List.append_nil] at hreg
    by_cases hp : path = []
    · rw [if_pos hp] at hreg
      subst hp
      obtain ⟨mp', hn', hsf⟩ := registerJobs_preserves rt (childJobs [] raw)
        ⟨Module.ofRaw raw rt⟩ [] (Module.ofRaw raw rt) c'
        (childJobs_ext [] raw) rfl hreg
      refine ⟨mp', ?_, hsf.1.symm, hsf.2.1.symm, hsf.2.2.symm⟩
      rw [get_eq_nodeAt]
      exact hn'
    · rw [if_neg hp] at hreg
      cases hra : registerAt c.root path (Module.ofRaw raw rt) with
      | none =>
        rw [hra] at hreg
        simp only [Option.map_none'] at hreg
        rw [registerJobs_none_any] at hreg
        cases hreg
      | some r1 =>
        rw [hra] at hreg
        simp only [Option.map_some'] at hreg
        have hn1 : nodeAt r1 path = some (Module.ofRaw raw rt) :=
          registerAt_nodeAt path c.root (Module.ofRaw raw rt) r1 hra
        obtain ⟨mp', hn', hsf⟩ := registerJobs_preserves rt
          (childJobs path raw) ⟨r1⟩ path (Module.ofRaw raw rt) c'
          (childJobs_ext path raw) hn1 hreg
        refine ⟨mp', ?_, hsf.1.symm, hsf.2.1.symm, hsf.2.2.symm⟩
        rw [get_eq_nodeAt]
        exact hn'
  · intro c path child hne hget hrt
    obtain ⟨dl, k, rfl⟩ : ∃ dl k, path = dl ++ [k] :=
      ⟨path.dropLast, path.getLast hne,
       (List.dropLast_append_getLast hne).symm⟩
    rw [get_eq_nodeAt, nodeAt_append] at hget
    cases hdl : nodeAt c.root dl with
    | none =>
      rw [hdl] at hget
      simp at hget
    | some parent =>
      rw [hdl] at hget
      simp only [Option.some_bind] at hget
      rw [nodeAt_singleton] at hget
      obtain ⟨root', hmod, hn'⟩ := modifyAt_spec dl c.root parent
        (fun pp => pp.removeChild k) hdl
      refine ⟨⟨root'⟩, ?_, ?_⟩
      · unfold ModuleCollection.unregister
        rw [List.getLast?_concat, List.dropLast_concat]
        simp [get_eq_nodeAt, hdl, hget, hrt, hmod]
      · rw [get_eq_nodeAt, nodeAt_append]
        rw [show (⟨root'⟩ : ModuleCollection).root = root' from rfl, hn']
        simp only [Option.some_bind]
        rw [nodeAt_singleton]
        exact getChild_removeChild_self parent k
  · intro c path child hne hget hrt
    obtain ⟨dl, k, rfl⟩ : ∃ dl k, path = dl ++ [k] :=
      ⟨path.dropLast, path.getLast hne,
       (List.dropLast_append_getLast hne).symm⟩
    rw [get_eq_nodeAt, nodeAt_append] at hget
    cases hdl : nodeAt c.root dl with
    | none =>
      rw [hdl] at hget
      simp at hget
    | some parent =>
      rw [hdl] at hget
      simp only [Option.some_bind] at hget
      rw [nodeAt_singleton] at hget
      constructor
      · unfold ModuleCollection.unregister
        rw [List.getLast?_concat, List.dropLast_concat]
        simp [get_eq_nodeAt, hdl, hget, hrt]
      · rw [get_eq_nodeAt, nodeAt_append, hdl]
        simp only [Option.some_bind]
        rw [nodeAt_singleton]
        exact hget

/-- The collection produced by registering `rawNil` at `["a"]` with
`runtime = true` on a bare root. -/
def mcReg : ModuleCollection :=
  ⟨(Module.ofRaw rawNil false).addChild "a" (Module.ofRaw rawNil true)⟩

/-- C7 witness: all three branches evaluated concretely — registering at
`["a"]` makes the node retrievable there; unregistering the
`runtime = true` node at `["a"]` of `mcReg` removes it; unregistering
the `runtime = false` node at `["a"]` of `mcW` is refused. -/
theorem register_get_unregister_witness :
    (∃ m, mcReg.get ["a"] = some m ∧ m.runtimeOf = true ∧ m.rawOf = rawNil
       ∧ m.stateOf = initState rawNil.stateF)
  ∧ (∃ c', mcReg.unregister ["a"] = some c' ∧ c'.get ["a"] = none)
  ∧ (mcW.unregister ["a"] = some mcW ∧ mcW.get ["a"] =
       some ((Module.ofRaw rawNsp false).addChild "b"
         (Module.ofRaw rawNil false))) := by
  have h := register_get_unregister
  refine ⟨?_, ?_, ?_⟩
  · refine h.1 ⟨Module.ofRaw rawNil false⟩ ["a"] rawNil true mcReg ?_
    rw [ModuleCollection.register, registerJobs_cons_some]
    rw [show childJobs ["a"] rawNil ++ ([] : List (List String × RawModule)) =
        [] from rfl]
    rw [registerJobs_nil]
    rfl
  · exact h.2.1 mcReg ["a"] (Module.ofRaw rawNil true) (by simp) rfl rfl
  · exact h.2.2 mcW ["a"]
      ((Module.ofRaw rawNsp false).addChild "b" (Module.ofRaw rawNil false))
      (by simp) rfl rfl
